import Mathlib

/-!
Verification of the tool-accuracy enrichment pipeline
(`tool_accuracy.py`, `tool_accuracy_timeline.py`, `tool_accuracy_polymarket.py`).

Shallow embedding conventions:
* question texts and titles are modelled as `List Char` (Python `str`),
  so prefix tests are `List.isPrefixOf`;
* Unix timestamps are `Int` (Python ints; `%` on `Int` agrees with Python `%`
  for a positive modulus);
* Python `round(x, 1)` on the exact value is modelled as round-half-even to
  one decimal over `ℚ`;
* fallible network fetches are an oracle `String → Except Unit (List MechRequest)`;
* the unbounded `while` loop of `_bin_edges` is translated with an explicit
  fuel that provably bounds the number of iterations (the cursor advances by
  at least one second per iteration).
-/

namespace ToolAccuracy

/-- The separator `QUESTION_DATA_SEPARATOR = "␟"` of the three scripts. -/
def QUESTION_DATA_SEPARATOR : Char := '␟'

/-- The character class stripped by Python `str.strip()` (ASCII whitespace). -/
def isPySpace (c : Char) : Bool :=
  c = ' ' || c = '\t' || c = '\n' || c = '\r' || c = '\x0b' || c = '\x0c'

/-- Python `s.strip()`: drop whitespace from both ends. -/
def pyStrip (s : List Char) : List Char :=
  ((s.dropWhile isPySpace).reverse.dropWhile isPySpace).reverse

/-- Source `extract_question_title`: `question.split(SEPARATOR)[0]`; the separator is a
single character, so the first piece is everything before its first occurrence.
The `if not question` guard of the source is kept. -/
def extract_question_title (question : List Char) : List Char :=
  if question = [] then [] else question.takeWhile (fun c => c ≠ QUESTION_DATA_SEPARATOR)

/-- The `parsedRequest` object of a mech request (`{questionTitle, tool, prompt}`).
`tool` is `Option` because the subgraph may return `null`. -/
structure ParsedRequest where
  questionTitle : List Char
  tool : Option String
  prompt : String
deriving DecidableEq

/-- A mech request row: `blockTimestamp` (absent/empty modelled as `none`,
the code coerces it with `int(r.get("blockTimestamp") or 0)`) and the
optional `parsedRequest`. -/
structure MechRequest where
  blockTimestamp : Option Int
  parsedRequest : Option ParsedRequest
deriving DecidableEq

/-- A formatted bet record as built by the bet fetchers. -/
structure Bet where
  bet_id : String
  timestamp : Int
  bettor : String
  service_id : Int
  chosen_outcome : Int
  correct_outcome : Int
  is_correct : Bool
  question : List Char
deriving DecidableEq

/-- Record `{**bet, "tool": tool}`: a bet plus the single added `tool` field. -/
structure EnrichedBet where
  bet : Bet
  tool : String
deriving DecidableEq

/-- Title of the question of a bet, extracted and stripped as in
`match_bet_to_mech_request`. -/
def betTitle (bet : Bet) : List Char :=
  pyStrip (extract_question_title bet.question)

/-- Title of the question of a mech request:
`extract_question_title((req.get("parsedRequest") or {}).get("questionTitle", "")).strip()`. -/
def mechTitle (r : MechRequest) : List Char :=
  pyStrip (extract_question_title ((r.parsedRequest.map (·.questionTitle)).getD []))

/-- Source `match_bet_to_mech_request`, identical in all three scripts: empty bet title matches
nothing; a request with an empty title is skipped; otherwise accept when either
stripped title is a string prefix of the other. -/
def match_bet_to_mech_request (bet : Bet) (mech_requests : List MechRequest) :
    List MechRequest :=
  let bt := betTitle bet
  if bt = [] then []
  else mech_requests.filter (fun r =>
    let mt := mechTitle r
    if mt = [] then false else (mt.isPrefixOf bt || bt.isPrefixOf mt))

/-- Concrete bet whose question strips to the empty title. -/
def emptyTitleBet : Bet := ⟨"b0", 0, "0xagent", 1, 0, 0, true, [' ']⟩

/-- Concrete bet with question `"Will X happen"`. -/
def shortBet : Bet := ⟨"b1", 250, "0xa", 1, 0, 0, true, "Will X happen".toList⟩

/-- Concrete bet with question `"Will X happen before Y"`. -/
def longBet : Bet := ⟨"b2", 250, "0xa", 1, 0, 0, true, "Will X happen before Y".toList⟩

/-- Concrete mech request titled `"Will X happen"`. -/
def reqShortTitle : MechRequest := ⟨some 100, some ⟨"Will X happen".toList, some "claude", "p"⟩⟩

/-- Concrete mech request titled `"Will X happen before Y"`. -/
def reqLongTitle : MechRequest := ⟨some 100, some ⟨"Will X happen before Y".toList, some "claude", "p"⟩⟩

/-- C3 counterexample: the claim accepts every pair where either trimmed title
is a prefix of the other, but a bet whose question strips to the empty string
is rejected by the matcher even though the empty title is a prefix of the
title of the request. -/
theorem matcher_rejects_empty_title_despite_prefix :
    match_bet_to_mech_request emptyTitleBet [reqShortTitle] = []
    ∧ betTitle emptyTitleBet <+: mechTitle reqShortTitle := by
  constructor
  · decide
  · decide

/-- C3 (amended): after truncating at the separator and stripping whitespace, a
request is accepted exactly when both resulting titles are non-empty and either
is a prefix of the other; that acceptance condition is symmetric in the two
titles. -/
theorem matcher_accepts_iff_mutual_prefix_nonempty (bet : Bet)
    (reqs : List MechRequest) (r : MechRequest) :
    (r ∈ match_bet_to_mech_request bet reqs ↔
      r ∈ reqs ∧ betTitle bet ≠ [] ∧ mechTitle r ≠ [] ∧
        (mechTitle r <+: betTitle bet ∨ betTitle bet <+: mechTitle r))
    ∧ (∀ s t : List Char,
        (s ≠ [] ∧ t ≠ [] ∧ (t <+: s ∨ s <+: t)) ↔
          (t ≠ [] ∧ s ≠ [] ∧ (s <+: t ∨ t <+: s))) := by
  constructor
  · unfold match_bet_to_mech_request
    by_cases hbt : betTitle bet = []
    · simp [hbt]
    · simp only [if_neg hbt, List.mem_filter]
      by_cases hmt : mechTitle r = []
      · simp [hmt]
      · simp [hmt, hbt, List.isPrefixOf_iff_prefix]
  · intro s t
    tauto

/-- C3 witness: the titles `"Will X happen"` and `"Will X happen before Y"`
match in both roles (bet title vs request title). -/
theorem matcher_accepts_iff_mutual_prefix_nonempty_witness :
    reqLongTitle ∈ match_bet_to_mech_request shortBet [reqLongTitle]
    ∧ reqShortTitle ∈ match_bet_to_mech_request longBet [reqShortTitle] := by
  constructor
  · exact ((matcher_accepts_iff_mutual_prefix_nonempty shortBet [reqLongTitle]
      reqLongTitle).1).mpr (by decide)
  · exact ((matcher_accepts_iff_mutual_prefix_nonempty longBet [reqShortTitle]
      reqShortTitle).1).mpr (by decide)

/-- Timestamp decode `int(r.get("blockTimestamp") or 0)`: a missing timestamp coerces to `0`. -/
def tsOf (r : MechRequest) : Int := r.blockTimestamp.getD 0

/-- Python `max(lst, key=f)`: scan left to right keeping the current element
unless a strictly greater key appears (so the first maximal element wins);
`none` on the empty list (where Python would raise). -/
def pyMaxBy (f : MechRequest → Int) : List MechRequest → Option MechRequest
  | [] => none
  | x :: xs => some (xs.foldl (fun m r => if f m < f r then r else m) x)

/-- The tie-break of `enrich_bets_with_tool`: among the matches not after the
bet take the one with the greatest `blockTimestamp`; if none precede the bet,
take the first match; `none` only for an empty match list. -/
def chooseMatch (ms : List MechRequest) (bet_ts : Int) : Option MechRequest :=
  match ms with
  | [] => none
  | m0 :: _ =>
    let before_bet := ms.filter (fun r => decide (tsOf r ≤ bet_ts))
    match pyMaxBy tsOf before_bet with
    | some c => some c
    | none => some m0

/-- A concrete mech request at a given block timestamp. -/
def exReq (ts : Int) : MechRequest :=
  ⟨some ts, some ⟨"Will X happen".toList, some "claude", "p"⟩⟩

lemma foldlMax_mem (f : MechRequest → Int) (x : MechRequest) (xs : List MechRequest) :
    xs.foldl (fun m r => if f m < f r then r else m) x ∈ x :: xs := by
  induction xs generalizing x with
  | nil => simp
  | cons y ys ih =>
    simp only [List.foldl_cons]
    rcases List.mem_cons.mp (ih (if f x < f y then y else x)) with h1 | h1
    · rw [h1]
      by_cases hxy : f x < f y <;> simp [hxy]
    · simp [h1]

lemma foldlMax_ge (f : MechRequest → Int) (x : MechRequest) (xs : List MechRequest) :
    ∀ r ∈ x :: xs, f r ≤ f (xs.foldl (fun m r => if f m < f r then r else m) x) := by
  induction xs generalizing x with
  | nil =>
    intro r hr
    simp at hr
    simp [hr]
  | cons y ys ih =>
    intro r hr
    simp only [List.foldl_cons]
    have hbase := ih (if f x < f y then y else x)
    have htop := hbase _ (List.mem_cons_self _ _)
    have hr' : r = x ∨ r = y ∨ r ∈ ys := by simpa using hr
    rcases hr' with h | h | h
    · refine le_trans ?_ htop
      rw [h]
      by_cases hxy : f x < f y
      · simpa [hxy] using le_of_lt hxy
      · simp [hxy]
    · refine le_trans ?_ htop
      rw [h]
      by_cases hxy : f x < f y
      · simp [hxy]
      · simpa [hxy] using le_of_not_lt hxy
    · exact hbase r (List.mem_cons_of_mem _ h)

/-- C2: for a non-empty match list the enricher picks the latest match at or
before the timestamp of the bet, falling back to the first match when no candidate
precedes the bet; in particular timestamps `[100, 200, 300]` with a bet at
`250` select the request at `200`. -/
theorem enricher_tiebreak_latest_before_bet (ms : List MechRequest)
    (bet_ts : Int) (h : ms ≠ []) :
    (∃ c, chooseMatch ms bet_ts = some c ∧ c ∈ ms
      ∧ ((∃ r ∈ ms, tsOf r ≤ bet_ts) →
          tsOf c ≤ bet_ts ∧ ∀ r ∈ ms, tsOf r ≤ bet_ts → tsOf r ≤ tsOf c)
      ∧ ((∀ r ∈ ms, ¬ tsOf r ≤ bet_ts) → ms.head? = some c))
    ∧ chooseMatch [exReq 100, exReq 200, exReq 300] 250 = some (exReq 200) := by
  refine ⟨?_, by decide⟩
  obtain ⟨m0, rest, rfl⟩ : ∃ a l, ms = a :: l := by
    cases ms with
    | nil => exact absurd rfl h
    | cons a l => exact ⟨a, l, rfl⟩
  rcases hb : (m0 :: rest).filter (fun r => decide (tsOf r ≤ bet_ts)) with _ | ⟨b, bs⟩
  · refine ⟨m0, ?_, by simp, ?_, fun _ => rfl⟩
    · simp [chooseMatch, hb, pyMaxBy]
    · rintro ⟨r, hr, hle⟩
      have := List.filter_eq_nil_iff.mp hb r hr
      simp [hle] at this
  · have hmem : ∀ r ∈ b :: bs, r ∈ m0 :: rest ∧ tsOf r ≤ bet_ts := by
      intro r hr
      rw [← hb] at hr
      have h1 := List.mem_filter.mp hr
      exact ⟨h1.1, by simpa using h1.2⟩
    refine ⟨bs.foldl (fun m r => if tsOf m < tsOf r then r else m) b, ?_, ?_, ?_, ?_⟩
    · simp [chooseMatch, hb, pyMaxBy]
    · exact (hmem _ (foldlMax_mem tsOf b bs)).1
    · intro _
      refine ⟨(hmem _ (foldlMax_mem tsOf b bs)).2, ?_⟩
      intro r hr hle
      have hrb : r ∈ b :: bs := by
        rw [← hb]
        exact List.mem_filter.mpr ⟨hr, by simpa⟩
      exact foldlMax_ge tsOf b bs r hrb
    · intro hnone
      exact absurd (hmem b (by simp)).2 (hnone b (hmem b (by simp)).1)

/-- C2 witness: the tie-break instantiated at the example of the spec. -/
theorem enricher_tiebreak_latest_before_bet_witness :
    (∃ c, chooseMatch [exReq 100, exReq 200, exReq 300] 250 = some c
      ∧ c ∈ [exReq 100, exReq 200, exReq 300]
      ∧ ((∃ r ∈ [exReq 100, exReq 200, exReq 300], tsOf r ≤ 250) →
          tsOf c ≤ 250 ∧ ∀ r ∈ [exReq 100, exReq 200, exReq 300],
            tsOf r ≤ 250 → tsOf r ≤ tsOf c)
      ∧ ((∀ r ∈ [exReq 100, exReq 200, exReq 300], ¬ tsOf r ≤ 250) →
          ([exReq 100, exReq 200, exReq 300] : List MechRequest).head? = some c))
    ∧ chooseMatch [exReq 100, exReq 200, exReq 300] 250 = some (exReq 200) :=
  enricher_tiebreak_latest_before_bet [exReq 100, exReq 200, exReq 300] 250
    (by decide)

/-- A raw bet row of the predict-omen subgraph, after the integer decodes
`int(bet["outcomeIndex"])` and `int(...["currentAnswer"], 16)` (the query
filters `currentAnswer_not: null`, so the answer is present). Embeds the raw
input of `fetch_last_bets` (tool_accuracy.py) and `_fetch_bets_from_api`
(tool_accuracy_timeline.py). -/
structure RawBet where
  id : String
  timestamp : Int
  bettor_id : String
  bettor_serviceId : Int
  outcomeIndex : Int
  currentAnswer : Int
  question : List Char

/-- The record built for each raw omen bet. -/
def formatBet (b : RawBet) : Bet :=
  { bet_id := b.id
    timestamp := b.timestamp
    bettor := b.bettor_id
    service_id := b.bettor_serviceId
    chosen_outcome := b.outcomeIndex
    correct_outcome := b.currentAnswer
    is_correct := decide (b.outcomeIndex = b.currentAnswer)
    question := b.question }

/-- The formatting loop shared by `fetch_last_bets` and `_fetch_bets_from_api`. -/
def formatBets (raw : List RawBet) : List Bet := raw.map formatBet

/-- A raw polymarket bet row; `winningIndex` is `none` when
`bet["question"]["resolution"]` is null. -/
structure RawPolyBet where
  id : String
  blockTimestamp : Int
  bettor_id : String
  bettor_serviceId : Int
  outcomeIndex : Int
  winningIndex : Option Int
  question_id : String
  question_title : List Char

/-- The record built for each resolved polymarket bet
(`question_title` plays the role of `question` in the matcher). -/
def formatPolyBet (b : RawPolyBet) (winning : Int) : Bet :=
  { bet_id := b.id
    timestamp := b.blockTimestamp
    bettor := b.bettor_id
    service_id := b.bettor_serviceId
    chosen_outcome := b.outcomeIndex
    correct_outcome := winning
    is_correct := decide (b.outcomeIndex = winning)
    question := b.question_title }

/-- The inner loop of polymarket `fetch_last_bets`: skip unresolved bets,
append resolved ones, stop once `n` records have been collected. -/
def processPolyBatch (n : Nat) : List RawPolyBet → List Bet → List Bet
  | [], acc => acc
  | b :: rest, acc =>
    match b.winningIndex with
    | none => processPolyBatch n rest acc
    | some w =>
      let acc2 := acc ++ [formatPolyBet b w]
      if n ≤ acc2.length then acc2 else processPolyBatch n rest acc2

lemma processPolyBatch_preserves (n : Nat) (P : Bet → Prop)
    (hfmt : ∀ b w, P (formatPolyBet b w)) :
    ∀ (raw : List RawPolyBet) (acc : List Bet), (∀ b ∈ acc, P b) →
      ∀ b ∈ processPolyBatch n raw acc, P b := by
  intro raw
  induction raw with
  | nil => intro acc hacc b hb; exact hacc b hb
  | cons r rest ih =>
    intro acc hacc b hb
    unfold processPolyBatch at hb
    rcases hw : r.winningIndex with _ | w
    · rw [hw] at hb
      exact ih acc hacc b hb
    · rw [hw] at hb
      simp only [] at hb
      have hacc2 : ∀ x ∈ acc ++ [formatPolyBet r w], P x := by
        intro x hx
        rcases List.mem_append.mp hx with h1 | h1
        · exact hacc x h1
        · rw [List.mem_singleton.mp h1]
          exact hfmt r w
      by_cases hn : n ≤ (acc ++ [formatPolyBet r w]).length
      · rw [if_pos hn] at hb
        exact hacc2 b hb
      · rw [if_neg hn] at hb
        exact ih _ hacc2 b hb

/-- C4: every bet record produced by the omen fetchers and by the polymarket
fetcher carries `is_correct = (chosen_outcome == correct_outcome)`. -/
theorem fetched_bets_is_correct_iff_chosen_eq_correct (raw : List RawBet)
    (praw : List RawPolyBet) (n : Nat) :
    (∀ b ∈ formatBets raw, b.is_correct = decide (b.chosen_outcome = b.correct_outcome))
    ∧ (∀ b ∈ processPolyBatch n praw [],
        b.is_correct = decide (b.chosen_outcome = b.correct_outcome)) := by
  constructor
  · intro b hb
    obtain ⟨r, _, rfl⟩ := List.mem_map.mp hb
    rfl
  · exact processPolyBatch_preserves n
      (fun b => b.is_correct = decide (b.chosen_outcome = b.correct_outcome))
      (fun _ _ => rfl) praw [] (by simp)

/-- C4 witness: a correct and an incorrect bet from each source, formatted. -/
theorem fetched_bets_is_correct_iff_chosen_eq_correct_witness :
    (∀ b ∈ formatBets [⟨"x", 5, "0xa", 1, 0, 0, []⟩, ⟨"y", 6, "0xa", 1, 0, 1, []⟩],
      b.is_correct = decide (b.chosen_outcome = b.correct_outcome))
    ∧ (∀ b ∈ processPolyBatch 2 [⟨"x", 5, "0xa", 1, 0, some 0, "q", []⟩,
        ⟨"y", 6, "0xa", 1, 0, none, "q", []⟩] [],
      b.is_correct = decide (b.chosen_outcome = b.correct_outcome)) :=
  fetched_bets_is_correct_iff_chosen_eq_correct
    [⟨"x", 5, "0xa", 1, 0, 0, []⟩, ⟨"y", 6, "0xa", 1, 0, 1, []⟩]
    [⟨"x", 5, "0xa", 1, 0, some 0, "q", []⟩, ⟨"y", 6, "0xa", 1, 0, none, "q", []⟩] 2

/-- Constant `CACHE_TTL_SECONDS = 3 * 60 * 60` of tool_accuracy_timeline.py. -/
def CACHE_TTL_SECONDS : Int := 3 * 60 * 60

/-- A `mech:{agent}` cache entry: `fetched_at`, the optional `fetched_from`
watermark, and the cached request list. -/
structure MechCacheEntry where
  fetched_at : Int
  fetched_from : Option Int
  requests : List MechRequest
deriving DecidableEq

/-- The `needs_refresh` condition of `get_mech_requests_cached`
(tool_accuracy_timeline.py): no entry, or
`start_ts < entry.get("fetched_from", start_ts + 1)`, or
`time.time() - entry["fetched_at"] > CACHE_TTL_SECONDS`. -/
def needsRefresh (entry : Option MechCacheEntry) (start_ts now : Int) : Bool :=
  match entry with
  | none => true
  | some en =>
    decide (start_ts < en.fetched_from.getD (start_ts + 1))
      || decide (now - en.fetched_at > CACHE_TTL_SECONDS)

/-- Source `get_mech_requests_cached` (timeline variant) for one agent key:
given the current cache entry for the agent and the clock `now`, returns the
request list handed to the caller, the cache entry after the call, and whether
a network fetch was performed. `fetchAPI` stands for
`_fetch_all_mech_requests_from_api(agent, timestamp_gt=start_ts)`. The `none`
fall-through in the cached branch is unreachable (`needsRefresh none = true`). -/
def get_mech_requests_cached (fetchAPI : Int → List MechRequest)
    (entry : Option MechCacheEntry) (start_ts now : Int) :
    List MechRequest × MechCacheEntry × Bool :=
  if needsRefresh entry start_ts now then
    let reqs := fetchAPI start_ts
    (reqs, ⟨now, some start_ts, reqs⟩, true)
  else
    match entry with
    | some en => (en.requests, en, false)
    | none => ([], ⟨now, some start_ts, []⟩, false)

/-- A cache entry whose age is exactly the TTL, with a watermark covering the
requested window. -/
def boundaryEntry : MechCacheEntry := ⟨0, some 5, [exReq 100]⟩

/-- C1 counterexample: at age exactly `TTL` the spec calls the entry invalid
(valid only while `now - fetched_at < TTL`), so the claim requires a refetch,
but the strict `>` in the code keeps serving the cached list with no network call. -/
theorem cache_serves_entry_aged_exactly_ttl :
    get_mech_requests_cached (fun _ => []) (some boundaryEntry) 5 CACHE_TTL_SECONDS
      = (boundaryEntry.requests, boundaryEntry, false)
    ∧ ¬ (CACHE_TTL_SECONDS - boundaryEntry.fetched_at < CACHE_TTL_SECONDS)
    ∧ ¬ ((5 : Int) < boundaryEntry.fetched_from.getD 6) := by
  refine ⟨?_, by decide, by decide⟩
  decide

/-- C1 (amended): a network refetch happens iff (a) there is no cache entry, or
(b) the requested start is strictly before the `fetched_from` watermark (a
missing watermark counts as needing refresh), or (c) the entry age strictly
exceeds the TTL (an entry is valid while `now - fetched_at ≤ TTL`); when none
hold, the cached request list is returned unchanged and no fetch happens. -/
theorem cache_refetch_iff_missing_wider_or_expired
    (fetchAPI : Int → List MechRequest) (entry : Option MechCacheEntry)
    (start_ts now : Int) :
    ((get_mech_requests_cached fetchAPI entry start_ts now).2.2 = true ↔
      (entry = none
        ∨ ∃ en, entry = some en
            ∧ (start_ts < en.fetched_from.getD (start_ts + 1)
              ∨ now - en.fetched_at > CACHE_TTL_SECONDS)))
    ∧ (∀ en, entry = some en →
        (get_mech_requests_cached fetchAPI entry start_ts now).2.2 = false →
        (get_mech_requests_cached fetchAPI entry start_ts now).1 = en.requests) := by
  constructor
  · cases entry with
    | none => simp [get_mech_requests_cached, needsRefresh]
    | some en =>
      by_cases hr : needsRefresh (some en) start_ts now
      · simp only [get_mech_requests_cached, if_pos hr]
        simp only [needsRefresh, Bool.or_eq_true, decide_eq_true_eq] at hr
        simp [hr]
      · simp only [get_mech_requests_cached, if_neg hr]
        simp only [needsRefresh, Bool.or_eq_true, decide_eq_true_eq, not_or] at hr
        push_neg at hr
        simp [hr.1, hr.2]
  · intro en hen hfetch
    subst hen
    by_cases hr : needsRefresh (some en) start_ts now
    · simp [get_mech_requests_cached, if_pos hr] at hfetch
    · simp [get_mech_requests_cached, if_neg hr]

/-- C1 witness: a fresh covering entry is served from cache; a missing entry
triggers a refetch. -/
theorem cache_refetch_iff_missing_wider_or_expired_witness :
    (get_mech_requests_cached (fun _ => []) (some boundaryEntry) 5 100).1
      = boundaryEntry.requests
    ∧ ((get_mech_requests_cached (fun _ => []) none 5 100).2.2 = true) := by
  constructor
  · exact (cache_refetch_iff_missing_wider_or_expired (fun _ => [])
      (some boundaryEntry) 5 100).2 boundaryEntry rfl (by decide)
  · exact (cache_refetch_iff_missing_wider_or_expired (fun _ => [])
      none 5 100).1.mpr (Or.inl rfl)

/-- Python `value or "unknown"` where `value` is the optional tool string:
`None` and the empty string are falsy. -/
def pyOrUnknown (o : Option String) : String :=
  match o with
  | none => "unknown"
  | some t => if t = "" then "unknown" else t

/-- Tool decode `(chosen.get("parsedRequest") or {}).get("tool") or "unknown"`. -/
def toolOf (r : MechRequest) : String :=
  pyOrUnknown (r.parsedRequest.bind (·.tool))

/-- The per-bet body of `enrich_bets_with_tool`: match, tie-break, and attach
the tool (`"unknown"` when there is no match or the match has no tool). -/
def enrichOne (reqs : List MechRequest) (b : Bet) : EnrichedBet :=
  match chooseMatch (match_bet_to_mech_request b reqs) b.timestamp with
  | some c => ⟨b, toolOf c⟩
  | none => ⟨b, "unknown"⟩

lemma enrichOne_bet (reqs : List MechRequest) (b : Bet) :
    (enrichOne reqs b).bet = b := by
  unfold enrichOne
  cases chooseMatch (match_bet_to_mech_request b reqs) b.timestamp <;> rfl

lemma enrichOne_nil (b : Bet) : enrichOne [] b = ⟨b, "unknown"⟩ := by
  unfold enrichOne match_bet_to_mech_request
  simp [chooseMatch]

/-- Source `enrich_bets_with_tool` of tool_accuracy_timeline.py. The per-agent cached
fetch (which may raise a network error) is abstracted as `oracle`; a failing
agent is recorded in `failed_agents` and contributes the empty request list,
and the count of failed agents is the surfaced warning. -/
def enrichTimeline (oracle : String → Except Unit (List MechRequest))
    (bets : List Bet) : List EnrichedBet × Nat :=
  let failed := ((bets.map (·.bettor)).dedup).countP
    (fun a => (oracle a).toOption.isNone)
  (bets.map (fun b => enrichOne ((oracle b.bettor).toOption.getD []) b), failed)

/-- Source `enrich_bets_with_tool` of tool_accuracy.py and
tool_accuracy_polymarket.py: the cached fetch is called inside the loop with
no exception handling, so the first failing agent aborts the whole run. -/
def enrichPlain (oracle : String → Except Unit (List MechRequest)) :
    List Bet → Except Unit (List EnrichedBet)
  | [] => .ok []
  | b :: rest =>
    match oracle b.bettor with
    | .error e => .error e
    | .ok rs =>
      match enrichPlain oracle rest with
      | .error e => .error e
      | .ok l => .ok (enrichOne rs b :: l)

/-- C8 counterexample: in the non-timeline enrichers a network failure while
fetching the requests of one agent aborts the whole run instead of enriching
the bets of that agent with `unknown`. -/
theorem plain_enrichment_aborts_on_agent_failure :
    enrichPlain (fun _ => .error ()) [shortBet] = .error () := rfl

/-- C8 (amended): in the timeline variant a per-agent fetch failure does not
abort the run — the output still has one record per bet, every bet of a failed
agent gets tool `"unknown"`, bets of agents whose fetch succeeded are enriched
from the fetched requests, and the number of distinct failed agents is
surfaced; in the simple variants the failure propagates and aborts the run. -/
theorem timeline_enrichment_tolerates_agent_failures
    (oracle : String → Except Unit (List MechRequest)) (bets : List Bet) :
    (enrichTimeline oracle bets).1.length = bets.length
    ∧ (∀ (i : Nat) (b : Bet), bets[i]? = some b → (oracle b.bettor).toOption = none →
        (enrichTimeline oracle bets).1[i]? = some ⟨b, "unknown"⟩)
    ∧ (∀ (i : Nat) (b : Bet) (rs : List MechRequest),
        bets[i]? = some b → oracle b.bettor = .ok rs →
        (enrichTimeline oracle bets).1[i]? = some (enrichOne rs b))
    ∧ (enrichTimeline oracle bets).2
        = ((bets.map (·.bettor)).dedup).countP (fun a => (oracle a).toOption.isNone) := by
  refine ⟨by simp [enrichTimeline], ?_, ?_, rfl⟩
  · intro i b hib hfail
    simp [enrichTimeline, List.getElem?_map, hib, hfail, enrichOne_nil]
  · intro i b rs hib hok
    simp [enrichTimeline, List.getElem?_map, hib, hok, Except.toOption]

/-- C8 witness: one agent fails, its bet resolves to `unknown`; a succeeding
oracle enriches normally. -/
theorem timeline_enrichment_tolerates_agent_failures_witness :
    (enrichTimeline (fun _ => .error ()) [shortBet]).1[0]? = some ⟨shortBet, "unknown"⟩
    ∧ (enrichTimeline (fun _ => .ok [exReq 100]) [shortBet]).1[0]?
        = some (enrichOne [exReq 100] shortBet) := by
  constructor
  · exact (timeline_enrichment_tolerates_agent_failures (fun _ => .error ())
      [shortBet]).2.1 0 shortBet rfl rfl
  · exact (timeline_enrichment_tolerates_agent_failures (fun _ => .ok [exReq 100])
      [shortBet]).2.2.1 0 shortBet [exReq 100] rfl rfl

/-- C10: enrichment returns one record per input bet, in order, whose bet
fields are the input bet unchanged — `tool` is the single added field (the
`EnrichedBet` type carries exactly the `Bet` fields plus `tool`, mirroring
`{**bet, "tool": tool}`); inputs are never mutated since all definitions are
pure. Stated for the timeline enricher and, on success, the plain enrichers. -/
theorem enrichment_preserves_input_bets
    (oracle : String → Except Unit (List MechRequest)) (bets : List Bet) :
    ((enrichTimeline oracle bets).1.map (·.bet) = bets)
    ∧ (∀ l, enrichPlain oracle bets = .ok l → l.map (·.bet) = bets) := by
  constructor
  · have h : ∀ b : Bet, (enrichOne ((oracle b.bettor).toOption.getD []) b).bet = b :=
      fun b => enrichOne_bet _ _
    simp [enrichTimeline, List.map_map, Function.comp_def, h]
  · induction bets with
    | nil =>
      intro l hl
      simp [enrichPlain] at hl
      simp [← hl]
    | cons b rest ih =>
      intro l hl
      unfold enrichPlain at hl
      rcases ho : oracle b.bettor with e | rs
      · rw [ho] at hl
        exact absurd hl (by simp)
      · rw [ho] at hl
        rcases hrec : enrichPlain oracle rest with e | l2
        · rw [hrec] at hl
          exact absurd hl (by simp)
        · rw [hrec] at hl
          simp only [Except.ok.injEq] at hl
          subst hl
          simp [enrichOne_bet, ih l2 hrec]

/-- C10 witness: a one-bet run through the plain enricher and the timeline
enricher both return the input bet with only a tool attached. -/
theorem enrichment_preserves_input_bets_witness :
    ((enrichTimeline (fun _ => .ok []) [shortBet]).1.map (·.bet) = [shortBet])
    ∧ ([enrichOne [] shortBet].map (·.bet) = [shortBet]) := by
  constructor
  · exact (enrichment_preserves_input_bets (fun _ => .ok []) [shortBet]).1
  · exact (enrichment_preserves_input_bets (fun _ => .ok []) [shortBet]).2
      [enrichOne [] shortBet] rfl

/-- Round-half-even to an integer, the rounding used by Python `round`
(taken on the exact rational value of `correct / total * 100`). -/
def roundHalfEven (x : ℚ) : ℤ :=
  let f := x.floor
  let r := x - f
  if r < 1 / 2 then f
  else if 1 / 2 < r then f + 1
  else if f % 2 = 0 then f else f + 1

/-- Python `round(x, 1)` on the exact value: round `10 * x` half-to-even. -/
def pyRound1 (x : ℚ) : ℚ := (roundHalfEven (x * 10) : ℚ) / 10

/-- Accuracy formula `round(correct / total * 100, 1) if total > 0 else 0.0`. -/
def accuracyOf (correct total : Nat) : ℚ :=
  if 0 < total then pyRound1 ((correct : ℚ) / (total : ℚ) * 100) else 0

/-- A per-tool statistics row (`{"tool", "total", "correct", "accuracy"}`). -/
structure ToolStats where
  tool : String
  total : Nat
  correct : Nat
  accuracy : ℚ
deriving DecidableEq

/-- Key order of the `totals` defaultdict: tools in order of first appearance
among the enriched bets (Python dicts iterate in insertion order). -/
def firstSeenTools (l : List EnrichedBet) : List String :=
  l.foldl (fun acc b => if b.tool ∈ acc then acc else acc ++ [b.tool]) []

/-- The stats row built for one tool by `compute_tool_accuracy`. -/
def toolStatsFor (l : List EnrichedBet) (t : String) : ToolStats :=
  ⟨t, l.countP (fun b => b.tool == t),
    l.countP (fun b => b.tool == t && b.bet.is_correct),
    accuracyOf (l.countP (fun b => b.tool == t && b.bet.is_correct))
      (l.countP (fun b => b.tool == t))⟩

/-- Stable insertion into a list sorted by `total` descending: the new element
goes before the first element whose `total` is not larger, so earlier elements
win ties — the same order `sorted(stats, key=..., reverse=True)` produces. -/
def insertTotalDesc (x : ToolStats) : List ToolStats → List ToolStats
  | [] => [x]
  | y :: ys => if x.total < y.total then y :: insertTotalDesc x ys else x :: y :: ys

/-- Stable sort by `total` descending (Python `sorted` is stable, and a
stable sort is determined by the key order, so insertion sort is faithful). -/
def pySortTotalDesc : List ToolStats → List ToolStats
  | [] => []
  | x :: xs => insertTotalDesc x (pySortTotalDesc xs)

/-- Source `compute_tool_accuracy` (tool_accuracy.py, tool_accuracy_polymarket.py)
and the identical `compute_overall_stats` (tool_accuracy_timeline.py). -/
def compute_tool_accuracy (l : List EnrichedBet) : List ToolStats :=
  pySortTotalDesc ((firstSeenTools l).map (toolStatsFor l))

lemma mem_firstSeen_foldl (l : List EnrichedBet) :
    ∀ (acc : List String) (t : String),
      t ∈ l.foldl (fun acc b => if b.tool ∈ acc then acc else acc ++ [b.tool]) acc ↔
        t ∈ acc ∨ t ∈ l.map (·.tool) := by
  induction l with
  | nil => simp
  | cons b bs ih =>
    intro acc t
    have hstep : ∀ s : String,
        s ∈ (if b.tool ∈ acc then acc else acc ++ [b.tool]) ↔ s ∈ acc ∨ s = b.tool := by
      intro s
      by_cases hmem : b.tool ∈ acc
      · rw [if_pos hmem]
        constructor
        · exact Or.inl
        · rintro (h | rfl)
          · exact h
          · exact hmem
      · rw [if_neg hmem]
        simp
    rw [List.foldl_cons, ih, hstep]
    simp
    tauto

lemma nodup_firstSeen_foldl (l : List EnrichedBet) :
    ∀ acc : List String, acc.Nodup →
      (l.foldl (fun acc b => if b.tool ∈ acc then acc else acc ++ [b.tool]) acc).Nodup := by
  induction l with
  | nil => exact fun acc h => h
  | cons b bs ih =>
    intro acc hacc
    rw [List.foldl_cons]
    apply ih
    by_cases hmem : b.tool ∈ acc
    · rwa [if_pos hmem]
    · rw [if_neg hmem, List.nodup_append]
      exact ⟨hacc, List.nodup_singleton _, by simpa using hmem⟩

lemma mem_firstSeenTools (l : List EnrichedBet) (t : String) :
    t ∈ firstSeenTools l ↔ t ∈ l.map (·.tool) := by
  rw [firstSeenTools, mem_firstSeen_foldl]
  simp

lemma firstSeenTools_nodup (l : List EnrichedBet) : (firstSeenTools l).Nodup :=
  nodup_firstSeen_foldl l [] (List.nodup_nil)

lemma filter_beq_singleton {t : String} (ts : List String) (hnd : ts.Nodup)
    (hmem : t ∈ ts) : ts.filter (fun u => u == t) = [t] := by
  induction ts with
  | nil => simp at hmem
  | cons a as ih =>
    rcases List.pairwise_cons.mp hnd with ⟨hna, hnas⟩
    by_cases hat : a = t
    · subst hat
      have hnil : as.filter (fun u => u == a) = [] := by
        rw [List.filter_eq_nil_iff]
        intro u hu
        simp only [beq_iff_eq]
        exact fun h => hna u hu h.symm
      simp [List.filter_cons, hnil]
    · have hmem2 : t ∈ as := by
        rcases List.mem_cons.mp hmem with h | h
        · exact absurd h.symm hat
        · exact h
      have hne : (a == t) = false := by simp [hat]
      simp [List.filter_cons, hne, ih hnas hmem2]

lemma insertTotalDesc_perm (x : ToolStats) (l : List ToolStats) :
    (insertTotalDesc x l).Perm (x :: l) := by
  induction l with
  | nil => exact List.Perm.refl _
  | cons y ys ih =>
    by_cases h : x.total < y.total
    · rw [insertTotalDesc, if_pos h]
      exact (ih.cons y).trans (List.Perm.swap x y ys)
    · rw [insertTotalDesc, if_neg h]

lemma pySortTotalDesc_perm (l : List ToolStats) : (pySortTotalDesc l).Perm l := by
  induction l with
  | nil => exact List.Perm.refl _
  | cons x xs ih =>
    rw [pySortTotalDesc]
    exact (insertTotalDesc_perm x (pySortTotalDesc xs)).trans (ih.cons x)

lemma insertTotalDesc_sorted (x : ToolStats) (l : List ToolStats)
    (h : l.Pairwise (fun a b => b.total ≤ a.total)) :
    (insertTotalDesc x l).Pairwise (fun a b => b.total ≤ a.total) := by
  induction l with
  | nil => simp [insertTotalDesc]
  | cons y ys ih =>
    rcases List.pairwise_cons.mp h with ⟨hy, hys⟩
    by_cases hxy : x.total < y.total
    · rw [insertTotalDesc, if_pos hxy]
      rw [List.pairwise_cons]
      refine ⟨?_, ih hys⟩
      intro z hz
      have hz2 : z ∈ x :: ys := (insertTotalDesc_perm x ys).mem_iff.mp hz
      rcases List.mem_cons.mp hz2 with rfl | hz3
      · exact le_of_lt hxy
      · exact hy z hz3
    · rw [insertTotalDesc, if_neg hxy]
      rw [List.pairwise_cons]
      refine ⟨?_, h⟩
      intro z hz
      rcases List.mem_cons.mp hz with rfl | hz2
      · exact le_of_not_lt hxy
      · exact le_trans (hy z hz2) (le_of_not_lt hxy)

lemma pySortTotalDesc_sorted (l : List ToolStats) :
    (pySortTotalDesc l).Pairwise (fun a b => b.total ≤ a.total) := by
  induction l with
  | nil => simp [pySortTotalDesc]
  | cons x xs ih => exact insertTotalDesc_sorted x _ ih

lemma filter_insertTotalDesc (k : Nat) (x : ToolStats) (l : List ToolStats) :
    (insertTotalDesc x l).filter (fun s => s.total == k)
      = (x :: l).filter (fun s => s.total == k) := by
  induction l with
  | nil => rfl
  | cons y ys ih =>
    by_cases hxy : x.total < y.total
    · rw [insertTotalDesc, if_pos hxy]
      by_cases hx : x.total = k
      · have hy : (y.total == k) = false := by
          have : y.total ≠ k := by omega
          simp [this]
        simp only [List.filter_cons, hy, ih, hx]
        simp
      · have hx' : (x.total == k) = false := by simp [hx]
        simp only [List.filter_cons, hx', ih]
        simp
    · rw [insertTotalDesc, if_neg hxy]

lemma filter_pySortTotalDesc (k : Nat) (l : List ToolStats) :
    (pySortTotalDesc l).filter (fun s => s.total == k)
      = l.filter (fun s => s.total == k) := by
  induction l with
  | nil => rfl
  | cons x xs ih =>
    rw [pySortTotalDesc, filter_insertTotalDesc, List.filter_cons,
      List.filter_cons, ih]

/-- C5: for every tool present in the input, the aggregator emits exactly one
row; its `total` counts the bets of the tool, `correct` counts the correct ones
(so `correct ≤ total`), accuracy is `round(correct / total * 100, 1)` on the
non-empty group, and the accuracy formula yields `0` for an empty group. -/
theorem aggregator_stats_per_tool (l : List EnrichedBet) (t : String)
    (ht : t ∈ l.map (·.tool)) :
    ∃ s : ToolStats,
      (compute_tool_accuracy l).filter (fun s => s.tool == t) = [s]
      ∧ s.total = l.countP (fun b => b.tool == t)
      ∧ s.correct = l.countP (fun b => b.tool == t && b.bet.is_correct)
      ∧ s.correct ≤ s.total
      ∧ 0 < s.total
      ∧ s.accuracy = pyRound1 ((s.correct : ℚ) / (s.total : ℚ) * 100)
      ∧ ∀ c : Nat, accuracyOf c 0 = 0 := by
  have htot : 0 < l.countP (fun b => b.tool == t) := by
    rw [List.countP_pos_iff]
    obtain ⟨b, hb, hbt⟩ := List.mem_map.mp ht
    exact ⟨b, hb, by simp [hbt]⟩
  refine ⟨toolStatsFor l t, ?_, rfl, rfl, ?_, htot, ?_, fun c => rfl⟩
  · have hperm : ((compute_tool_accuracy l).filter (fun s => s.tool == t)).Perm
        (((firstSeenTools l).map (toolStatsFor l)).filter (fun s => s.tool == t)) :=
      (pySortTotalDesc_perm _).filter _
    have hbase : ((firstSeenTools l).map (toolStatsFor l)).filter (fun s => s.tool == t)
        = [toolStatsFor l t] := by
      rw [List.filter_map]
      have : (firstSeenTools l).filter ((fun s : ToolStats => s.tool == t) ∘ toolStatsFor l)
          = [t] :=
        filter_beq_singleton (firstSeenTools l) (firstSeenTools_nodup l)
          ((mem_firstSeenTools l t).mpr ht)
      rw [this]
      rfl
    rw [hbase] at hperm
    exact List.perm_singleton.mp hperm
  · exact List.countP_mono_left (by intro b _ hb; simp at hb; simp [hb.1])
  · show accuracyOf _ _ = _
    rw [accuracyOf, if_pos htot]
    rfl

/-- C5 witness: one tool, two bets, one correct. -/
theorem aggregator_stats_per_tool_witness :
    ∃ s : ToolStats,
      (compute_tool_accuracy [⟨shortBet, "claude"⟩, ⟨longBet, "claude"⟩]).filter
          (fun s => s.tool == "claude") = [s]
      ∧ s.total = ([⟨shortBet, "claude"⟩, ⟨longBet, "claude"⟩] : List EnrichedBet).countP
          (fun b => b.tool == "claude")
      ∧ s.correct = ([⟨shortBet, "claude"⟩, ⟨longBet, "claude"⟩] : List EnrichedBet).countP
          (fun b => b.tool == "claude" && b.bet.is_correct)
      ∧ s.correct ≤ s.total
      ∧ 0 < s.total
      ∧ s.accuracy = pyRound1 ((s.correct : ℚ) / (s.total : ℚ) * 100)
      ∧ ∀ c : Nat, accuracyOf c 0 = 0 :=
  aggregator_stats_per_tool [⟨shortBet, "claude"⟩, ⟨longBet, "claude"⟩] "claude"
    (by decide)

/-- C6: the aggregated rows are sorted by `total` descending, and within a
given `total` the rows keep the order in which their tools were first seen in
the input (stability of the sort). -/
theorem aggregator_sorted_desc_first_seen_ties (l : List EnrichedBet) (k : Nat) :
    ((compute_tool_accuracy l).Pairwise (fun a b => b.total ≤ a.total))
    ∧ ((compute_tool_accuracy l).filter (fun s => s.total == k)).map (·.tool)
        = (firstSeenTools l).filter (fun u => l.countP (fun b => b.tool == u) == k) := by
  constructor
  · exact pySortTotalDesc_sorted _
  · rw [compute_tool_accuracy, filter_pySortTotalDesc, List.filter_map, List.map_map]
    rw [show ((fun s : ToolStats => s.tool) ∘ toolStatsFor l) = id from rfl, List.map_id]
    rfl

/-- Granularity auto-selection of `_bin_edges`, in seconds: daily when
`(end_ts - start_ts) / 86400 ≤ 30` (exact for the integer comparison),
weekly otherwise. -/
def stepSeconds (s e : Int) : Nat := if e - s ≤ 30 * 86400 then 86400 else 604800

/-- The `while cursor <= end_dt` loop of `_bin_edges`, collecting edges
`c, c + (sp+1), c + 2*(sp+1), ...` while `≤ e`. The loop advances the cursor
by at least one second per iteration, so `(e + 1 - c).toNat` iterations always
suffice; the fuel is only a termination device, never reached. -/
def edgesFromFuel : Nat → Nat → Int → Int → List Int
  | 0, _, _, _ => []
  | fuel + 1, sp, e, c =>
    if c ≤ e then c :: edgesFromFuel fuel sp e (c + sp + 1) else []

/-- The day-aligned edges generated by the loop: the cursor starts at the UTC
midnight of `start_ts` (`datetime.replace(hour=0, ...)`, i.e. `s - s % 86400`)
and steps by `stepSeconds` seconds (`timedelta(days=step_days)` in UTC). -/
def loopEdges (s e : Int) : List Int :=
  edgesFromFuel (e + 1 - (s - s % 86400)).toNat (stepSeconds s e - 1) e
    (s - s % 86400)

/-- Source `_bin_edges`: the loop edges, plus a final `end_ts + 1` edge when the loop
did not reach the very end (`if not edges or edges[-1] < end_ts`). -/
def binEdges (s e : Int) : List Int :=
  match (loopEdges s e).getLast? with
  | none => [e + 1]
  | some last => if last < e then loopEdges s e ++ [e + 1] else loopEdges s e

/-- The half-open bins `[edges[i], edges[i+1])` used by `bin_bets`. -/
def binsOf (s e : Int) : List (Int × Int) :=
  (binEdges s e).zip (binEdges s e).tail

lemma one_le_stepSeconds (s e : Int) : 1 ≤ stepSeconds s e := by
  rw [stepSeconds]
  split <;> norm_num

lemma edgesFromFuel_nil (fuel : Nat) (sp : Nat) (e c : Int) (h : ¬ c ≤ e) :
    edgesFromFuel fuel sp e c = [] := by
  cases fuel <;> simp [edgesFromFuel, h]

lemma edgesFromFuel_cons (fuel : Nat) (sp : Nat) (e c : Int) (h : c ≤ e) :
    edgesFromFuel (fuel + 1) sp e c = c :: edgesFromFuel fuel sp e (c + sp + 1) := by
  simp [edgesFromFuel, h]

lemma edgesFromFuel_head (fuel : Nat) (sp : Nat) (e c x : Int) (xs : List Int)
    (h : edgesFromFuel fuel sp e c = x :: xs) : x = c := by
  cases fuel with
  | zero => simp [edgesFromFuel] at h
  | succ n =>
    by_cases hc : c ≤ e
    · rw [edgesFromFuel_cons n sp e c hc] at h
      exact (List.cons.injEq _ _ _ _ ▸ h).1.symm
    · rw [edgesFromFuel_nil _ _ _ _ hc] at h
      exact absurd h (by simp)

lemma edgesFromFuel_mem (fuel : Nat) (sp : Nat) (e : Int) :
    ∀ c, ∀ x ∈ edgesFromFuel fuel sp e c, c ≤ x ∧ x ≤ e := by
  induction fuel with
  | zero =>
    intro c x hx
    simp [edgesFromFuel] at hx
  | succ n ih =>
    intro c x hx
    by_cases h : c ≤ e
    · rw [edgesFromFuel_cons n sp e c h] at hx
      rcases List.mem_cons.mp hx with rfl | hx2
      · exact ⟨le_refl _, h⟩
      · have h2 := ih (c + sp + 1) x hx2
        exact ⟨by omega, h2.2⟩
    · rw [edgesFromFuel_nil _ _ _ _ h] at hx
      simp at hx

lemma edgesFromFuel_chain (fuel : Nat) (sp : Nat) (e : Int) :
    ∀ c, (edgesFromFuel fuel sp e c).Chain' (fun a b => b = a + (sp + 1 : Int)) := by
  induction fuel with
  | zero =>
    intro c
    simp [edgesFromFuel]
  | succ n ih =>
    intro c
    by_cases h : c ≤ e
    · rw [edgesFromFuel_cons n sp e c h]
      rcases hn : edgesFromFuel n sp e (c + sp + 1) with _ | ⟨d, ds⟩
      · simp
      · rw [List.chain'_cons]
        refine ⟨?_, hn ▸ ih (c + sp + 1)⟩
        have hd := edgesFromFuel_head n sp e (c + sp + 1) d ds hn
        omega
    · rw [edgesFromFuel_nil _ _ _ _ h]
      simp

lemma getLast?_cons_of_ne_nil {a : Int} {l : List Int} (h : l ≠ []) :
    (a :: l).getLast? = l.getLast? := by
  cases l with
  | nil => exact absurd rfl h
  | cons b t => exact List.getLast?_cons_cons

lemma edgesFromFuel_last (fuel : Nat) (sp : Nat) (e : Int) :
    ∀ c, (e + 1 - c).toNat ≤ fuel → c ≤ e →
      ∃ L, (edgesFromFuel fuel sp e c).getLast? = some L
        ∧ L ≤ e ∧ e < L + sp + 1 ∧ ∃ k : Nat, L = c + k * (sp + 1) := by
  induction fuel with
  | zero =>
    intro c hf hc
    exfalso
    omega
  | succ n ih =>
    intro c hf hc
    rw [edgesFromFuel_cons n sp e c hc]
    by_cases h2 : c + sp + 1 ≤ e
    · obtain ⟨L, hL, hLe, hLs, k, hk⟩ := ih (c + sp + 1) (by omega) h2
      have hne : edgesFromFuel n sp e (c + sp + 1) ≠ [] := by
        intro hcon
        rw [hcon] at hL
        simp at hL
      refine ⟨L, ?_, hLe, hLs, k + 1, ?_⟩
      · rw [getLast?_cons_of_ne_nil hne]
        exact hL
      · rw [hk]
        push_cast
        ring
    · rw [edgesFromFuel_nil n sp e _ h2]
      exact ⟨c, rfl, hc, by omega, 0, by simp⟩

lemma chain'_zip_tail {R : Int → Int → Prop} :
    ∀ l : List Int, l.Chain' R → ∀ p ∈ l.zip l.tail, R p.1 p.2 := by
  intro l
  induction l with
  | nil =>
    intro _ p hp
    simp at hp
  | cons a t ih =>
    intro hc p hp
    cases t with
    | nil => simp at hp
    | cons b u =>
      rw [List.chain'_cons] at hc
      rcases List.mem_cons.mp hp with rfl | hp2
      · exact hc.1
      · exact ih hc.2 p hp2

lemma chain_head_le {b : Int} {t : List Int} (h : (b :: t).Chain' (· < ·)) :
    ∀ x ∈ b :: t, b ≤ x := by
  intro x hx
  rcases List.mem_cons.mp hx with rfl | hx2
  · exact le_refl _
  · have hp : (b :: t).Pairwise (· < ·) := List.chain'_iff_pairwise.mp h
    exact le_of_lt ((List.pairwise_cons.mp hp).1 x hx2)

lemma count_cover (ts : Int) :
    ∀ (l : List Int) (a : Int), (a :: l).Chain' (· < ·) →
      ∀ L, (a :: l).getLast? = some L → a ≤ ts → ts < L →
        ((a :: l).zip l).countP (fun p => decide (p.1 ≤ ts) && decide (ts < p.2)) = 1 := by
  intro l
  induction l with
  | nil =>
    intro a _ L hL ha hts
    simp at hL
    omega
  | cons b t ih =>
    intro a hchain L hL ha hts
    have hc := List.chain'_cons.mp hchain
    have hL2 : (b :: t).getLast? = some L := by rwa [List.getLast?_cons_cons] at hL
    rw [List.zip_cons_cons, List.countP_cons]
    by_cases hb : ts < b
    · have h1 : (decide (a ≤ ts) && decide (ts < b)) = true := by simp [ha, hb]
      have hrest : ((b :: t).zip t).countP
          (fun p => decide (p.1 ≤ ts) && decide (ts < p.2)) = 0 := by
        rw [List.countP_eq_zero]
        intro p hp
        have hfst : b ≤ p.1 := chain_head_le hc.2 p.1 (List.of_mem_zip hp).1
        simp only [Bool.and_eq_true, decide_eq_true_eq, not_and]
        intro hle
        omega
      rw [hrest, h1]
      simp
    · push_neg at hb
      have h1 : (decide (a ≤ ts) && decide (ts < b)) = false := by simp [hb]
      rw [h1]
      simpa using ih b hc.2 L hL2 hb hts

lemma day_floor_le (s : Int) : s - s % 86400 ≤ s := by
  have := Int.emod_nonneg s (show (86400 : Int) ≠ 0 by norm_num)
  omega

lemma loopEdges_shape (s e : Int) (h : s ≤ e) :
    ∃ tail, loopEdges s e = (s - s % 86400) :: tail := by
  have hc0 : s - s % 86400 ≤ e := le_trans (day_floor_le s) h
  rw [loopEdges]
  obtain ⟨n, hn⟩ : ∃ n, (e + 1 - (s - s % 86400)).toNat = n + 1 :=
    ⟨(e + 1 - (s - s % 86400)).toNat - 1, by omega⟩
  rw [hn, edgesFromFuel_cons n _ e _ hc0]
  exact ⟨_, rfl⟩

lemma cast_step (s e : Int) :
    ((stepSeconds s e - 1 : Nat) : Int) + 1 = (stepSeconds s e : Int) := by
  have := one_le_stepSeconds s e
  omega

lemma loopEdges_chain_lt (s e : Int) : (loopEdges s e).Chain' (· < ·) := by
  refine List.Chain'.imp ?_ (edgesFromFuel_chain _ _ _ _)
  intro a b hb
  have : (0 : Int) ≤ ((stepSeconds s e - 1 : Nat) : Int) := Int.natCast_nonneg _
  omega

lemma loopEdges_step (s e : Int) :
    ∀ p ∈ (loopEdges s e).zip (loopEdges s e).tail,
      p.2 = p.1 + (stepSeconds s e : Int) := by
  intro p hp
  have h := chain'_zip_tail _ (edgesFromFuel_chain _ _ _ _) p hp
  have hs := one_le_stepSeconds s e
  omega

lemma loopEdges_last (s e : Int) (h : s ≤ e) :
    ∃ L, (loopEdges s e).getLast? = some L ∧ L ≤ e
      ∧ e < L + stepSeconds s e
      ∧ ∃ k : Nat, L = (s - s % 86400) + k * (stepSeconds s e : Int) := by
  have hc0 : s - s % 86400 ≤ e := le_trans (day_floor_le s) h
  obtain ⟨L, h1, h2, h3, k, h4⟩ :=
    edgesFromFuel_last (e + 1 - (s - s % 86400)).toNat (stepSeconds s e - 1) e
      (s - s % 86400) (le_refl _) hc0
  have hs := one_le_stepSeconds s e
  refine ⟨L, h1, h2, by omega, k, ?_⟩
  rw [h4, ← cast_step s e]

lemma binEdges_eq (s e : Int) (h : s ≤ e) :
    ∃ L, (loopEdges s e).getLast? = some L ∧ L ≤ e
      ∧ e < L + stepSeconds s e
      ∧ (∃ k : Nat, L = (s - s % 86400) + k * (stepSeconds s e : Int))
      ∧ ((L < e ∧ binEdges s e = loopEdges s e ++ [e + 1])
        ∨ (L = e ∧ binEdges s e = loopEdges s e)) := by
  obtain ⟨L, h1, h2, h3, hk⟩ := loopEdges_last s e h
  refine ⟨L, h1, h2, h3, hk, ?_⟩
  by_cases hL : L < e
  · exact Or.inl ⟨hL, by rw [binEdges, h1]; simp [hL]⟩
  · exact Or.inr ⟨le_antisymm h2 (le_of_not_lt hL), by rw [binEdges, h1]; simp [hL]⟩

/-- C7 (amended): the requested window is covered by contiguous half-open bins
whose loop edges are spaced by exactly the selected granularity — daily
(86400 s) when the span is at most 30 days, weekly (604800 s) otherwise — and
every timestamp in `[start, end]` lies in exactly one bin, except that a
timestamp equal to `end` lies in no bin when `end` itself coincides with a
generated day-aligned loop edge. -/
theorem binning_daily_leq_30d_weekly_otherwise_covers (s e ts : Int)
    (h0 : s ≤ e) (h1 : s ≤ ts) (h2 : ts ≤ e)
    (h3 : ts < e ∨ ¬ ((stepSeconds s e : Int) ∣ (e - (s - s % 86400)))) :
    ((stepSeconds s e : Nat) = if e - s ≤ 30 * 86400 then 86400 else 604800)
    ∧ (∀ p ∈ (loopEdges s e).zip (loopEdges s e).tail,
        p.2 = p.1 + (stepSeconds s e : Int))
    ∧ (binsOf s e).countP (fun p => decide (p.1 ≤ ts) && decide (ts < p.2)) = 1 := by
  refine ⟨rfl, loopEdges_step s e, ?_⟩
  obtain ⟨tail, htail⟩ := loopEdges_shape s e h0
  have hd0le : s - s % 86400 ≤ ts := le_trans (day_floor_le s) h1
  obtain ⟨L, hlast, hLe, hLstep, ⟨k, hk⟩, hcase⟩ := binEdges_eq s e h0
  rcases hcase with ⟨hLlt, hbe⟩ | ⟨hLeq, hbe⟩
  · have hbe2 : binEdges s e = (s - s % 86400) :: (tail ++ [e + 1]) := by
      rw [hbe, htail]
      rfl
    rw [binsOf, hbe2]
    have hchain : ((s - s % 86400) :: (tail ++ [e + 1])).Chain' (· < ·) := by
      have hll : ((s - s % 86400) :: tail ++ [e + 1]).Chain' (· < ·) := by
        rw [List.chain'_append]
        refine ⟨htail ▸ loopEdges_chain_lt s e, by simp, ?_⟩
        intro x hx y hy
        rw [htail] at hlast
        rw [hlast] at hx
        simp at hx hy
        omega
      simpa using hll
    have hlast2 : ((s - s % 86400) :: (tail ++ [e + 1])).getLast? = some (e + 1) := by
      rw [show (s - s % 86400) :: (tail ++ [e + 1])
          = ((s - s % 86400) :: tail) ++ [e + 1] from rfl]
      exact List.getLast?_concat _
    exact count_cover ts (tail ++ [e + 1]) (s - s % 86400) hchain (e + 1) hlast2
      hd0le (by omega)
  · have hts : ts < e := by
      rcases h3 with h | h
      · exact h
      · exfalso
        apply h
        have heq : e - (s - s % 86400) = (k : Int) * (stepSeconds s e : Int) := by
          linarith [hk, hLeq]
        exact ⟨k, by rw [heq]; ring⟩
    rw [binsOf, hbe, htail]
    exact count_cover ts tail (s - s % 86400) (htail ▸ loopEdges_chain_lt s e) L
      (htail ▸ hlast) hd0le (by omega)

/-- C7 counterexample: with `start = 0` and `end = 86400` (one exact UTC day)
the bet timestamped exactly `end` lies inside `[start, end]` but falls into no
bin: the edges are `[0, 86400]` and the single bin `[0, 86400)` excludes it. -/
theorem bet_at_end_on_edge_falls_in_no_bin :
    binEdges 0 86400 = [0, 86400]
    ∧ (0 : Int) ≤ 86400 ∧ (86400 : Int) ≤ 86400
    ∧ (binsOf 0 86400).countP
        (fun p => decide (p.1 ≤ (86400 : Int)) && decide ((86400 : Int) < p.2)) = 0 := by
  refine ⟨by decide, by decide, by decide, by decide⟩

/-- C7 witness: a 45-day window gets weekly granularity and an interior
timestamp falls in exactly one bin (a 20-day window analogously gets daily
granularity: `stepSeconds 0 (20 * 86400) = 86400` holds by `decide` inside the
first conjunct of the amended theorem at those arguments). -/
theorem binning_daily_leq_30d_weekly_otherwise_covers_witness :
    (((stepSeconds 0 3888000 : Nat) = if (3888000 : Int) - 0 ≤ 30 * 86400 then 86400 else 604800)
      ∧ (∀ p ∈ (loopEdges 0 3888000).zip (loopEdges 0 3888000).tail,
          p.2 = p.1 + (stepSeconds 0 3888000 : Int))
      ∧ (binsOf 0 3888000).countP
          (fun p => decide (p.1 ≤ (100 : Int)) && decide ((100 : Int) < p.2)) = 1)
    ∧ ((stepSeconds 0 (20 * 86400) : Nat) = 86400) := by
  constructor
  · exact binning_daily_leq_30d_weekly_otherwise_covers 0 3888000 100
      (by norm_num) (by norm_num) (by norm_num) (Or.inl (by norm_num))
  · decide

/-- Bin count `n_bins = len(edges) - 1`. -/
def nBins (s e : Int) : Nat := (binEdges s e).length - 1

/-- The linear scan of `bin_bets`: the first `i` with
`edges[i] <= ts < edges[i+1]`, else no bin. -/
def binIdxGo : List Int → Int → Nat → Option Nat
  | a :: b :: rest, ts, i =>
    if a ≤ ts ∧ ts < b then some i else binIdxGo (b :: rest) ts (i + 1)
  | _, _, _ => none

/-- The bin index assigned to a timestamp by `bin_bets`. -/
def binIdx (edges : List Int) (ts : Int) : Option Nat := binIdxGo edges ts 0

/-- Counter `bin_totals[i][t]`: bets of tool `t` landing in bin `i`. -/
def binTotal (l : List EnrichedBet) (edges : List Int) (i : Nat) (t : String) : Nat :=
  l.countP (fun b => binIdx edges b.bet.timestamp == some i && b.tool == t)

/-- Counter `bin_corrects[i][t]`. -/
def binCorrect (l : List EnrichedBet) (edges : List Int) (i : Nat) (t : String) : Nat :=
  l.countP (fun b =>
    binIdx edges b.bet.timestamp == some i && b.tool == t && b.bet.is_correct)

/-- Series `tool_series[t]`: per-bin accuracy of tool `t`, `none` when the bin holds
no bets of that tool. -/
def toolSeries (l : List EnrichedBet) (s e : Int) (t : String) : List (Option ℚ) :=
  (List.range (nBins s e)).map (fun i =>
    if 0 < binTotal l (binEdges s e) i t
    then some (pyRound1 ((binCorrect l (binEdges s e) i t : ℚ)
      / (binTotal l (binEdges s e) i t : ℚ) * 100))
    else none)

/-- Per-bin total over all tools except `"unknown"`
(`sum(v for k, v in bin_totals[i].items() if k != "unknown")`). -/
def knownTotal (l : List EnrichedBet) (edges : List Int) (i : Nat) : Nat :=
  l.countP (fun b => binIdx edges b.bet.timestamp == some i && b.tool != "unknown")

/-- Per-bin corrects over all tools except `"unknown"`. -/
def knownCorrect (l : List EnrichedBet) (edges : List Int) (i : Nat) : Nat :=
  l.countP (fun b =>
    binIdx edges b.bet.timestamp == some i && b.tool != "unknown" && b.bet.is_correct)

/-- Series `overall_series`: per-bin accuracy over known tools, `none` on empty bins. -/
def overallSeries (l : List EnrichedBet) (s e : Int) : List (Option ℚ) :=
  (List.range (nBins s e)).map (fun i =>
    if 0 < knownTotal l (binEdges s e) i
    then some (pyRound1 ((knownCorrect l (binEdges s e) i : ℚ)
      / (knownTotal l (binEdges s e) i : ℚ) * 100))
    else none)

/-- C9: a bin with zero observations for a tool yields `none` for that tool
(and a non-empty bin yields an actual value, never a placeholder zero);
likewise the overall series is `none` on bins with zero known-tool bets. -/
theorem empty_bins_report_none (l : List EnrichedBet) (s e : Int) (t : String)
    (i : Nat) (hi : i < nBins s e) :
    (binTotal l (binEdges s e) i t = 0 → (toolSeries l s e t)[i]? = some none)
    ∧ (0 < binTotal l (binEdges s e) i t →
        ∃ q : ℚ, (toolSeries l s e t)[i]? = some (some q))
    ∧ (knownTotal l (binEdges s e) i = 0 → (overallSeries l s e)[i]? = some none) := by
  have hidx : (List.range (nBins s e))[i]? = some i := by
    rw [List.getElem?_range hi]
  refine ⟨?_, ?_, ?_⟩
  · intro h0
    rw [toolSeries, List.getElem?_map, hidx]
    simp [h0]
  · intro hpos
    refine ⟨pyRound1 ((binCorrect l (binEdges s e) i t : ℚ)
      / (binTotal l (binEdges s e) i t : ℚ) * 100), ?_⟩
    rw [toolSeries, List.getElem?_map, hidx]
    simp [hpos]
  · intro h0
    rw [overallSeries, List.getElem?_map, hidx]
    simp [h0]

/-- C9 witness: with no bets at all, the single bin of the one-day window
reports `none` for any tool and for the overall series. -/
theorem empty_bins_report_none_witness :
    ((toolSeries [] 0 86400 "claude")[0]? = some none)
    ∧ ((overallSeries [] 0 86400)[0]? = some none) := by
  constructor
  · exact (empty_bins_report_none [] 0 86400 "claude" 0 (by decide)).1 (by decide)
  · exact (empty_bins_report_none [] 0 86400 "claude" 0 (by decide)).2.2 (by decide)

end ToolAccuracy
